import Mathlib

/-!
Verification development for the TensorGCC repository.

The repository contains two implementations of the generalized
cross-correlation (GCC) pipeline:

* `src/tensorgcc/gcc.py` (functions `next_power_of_two`, `gcc`, `_gcc`,
  `_shift`, `_filter`, `_scale`), the primary implementation, and
* `src/gcc/gcc.py` together with `src/gcc/ops.py`, an older variant that
  differs in the "unbiased" scaling branch.

This file gives a shallow embedding of both.  Waveform samples are embedded
as rationals (the idealisation of the float arrays: exact arithmetic, no
rounding).  The external array/FFT backend (TensorFlow in the source) is
embedded as a `Backend` structure holding the operations `gcc` calls into:
`rfft`, `conj`, complex multiplication, the PHAT weighting and `irfft`.
Theorems about control flow, error dispatch and scaling are proved for
every backend; theorems about concrete output values instantiate the exact
rational backend `ratB`, whose `irfft` evaluates the one cross-spectrum
pattern the pipeline ever builds, `irfft (rfft x1 * conj (rfft x0))`, by
the discrete correlation theorem: with exact arithmetic this composition
is precisely the circular cross-correlation of the two inputs zero-padded
(or truncated) to the transform length, which is rational-valued.
-/

deriving instance DecidableEq for Except

unseal Rat.add Rat.sub Rat.mul Rat.inv

namespace TensorGCC

/-- Python slice `x[a:b]` (step 1) with full Python index semantics:
negative bounds count from the end, and bounds are clipped to the list. -/
def pySlice {α : Type} (x : List α) (a b : ℤ) : List α :=
  let n : ℤ := x.length
  let a' : ℤ := if a < 0 then max 0 (n + a) else min a n
  let b' : ℤ := if b < 0 then max 0 (n + b) else min b n
  (x.take b'.toNat).drop a'.toNat

/-- Semantics of the `fft_length` argument of `tf.signal.rfft`: the input is
truncated to `n` samples if longer, and zero-padded to `n` samples if
shorter, before the transform. -/
def padTrunc (x : List ℚ) (n : ℕ) : List ℚ :=
  x.take n ++ List.replicate (n - x.length) 0

/-- Circular cross-correlation of `x0` and `x1`, both brought to length `n`
with `padTrunc`: entry `k` is `Σ_i x0[i] * x1[(i+k) mod n]`.  With exact
arithmetic this is the value of
`tf.signal.irfft(tf.signal.rfft(x1,[n]) * tf.math.conj(tf.signal.rfft(x0,[n])), [n])`
(the discrete correlation theorem), so it is the denotation of the spectral
stage of `_gcc` (src/tensorgcc/gcc.py lines 61-68) when `weighting` is
`None`. -/
def circCorr (x0 x1 : List ℚ) (n : ℕ) : List ℚ :=
  let p0 := padTrunc x0 n
  let p1 := padTrunc x1 n
  (List.range n).map fun k =>
    ((List.range n).map fun i => p0.getD i 0 * p1.getD ((i + k) % n) 0).sum

/-- DC removal (src/tensorgcc/gcc.py lines 54-55): subtract the arithmetic
mean along the sample axis, `x - tf.reduce_mean(x, axis=-1, keepdims=True)`
applied to one row. -/
def demean (x : List ℚ) : List ℚ :=
  x.map fun v => v - x.sum / (x.length : ℚ)

/-- Bit length of a natural number, with explicit fuel so that it is
structurally recursive (the kernel can evaluate it).  `bitLenAux fuel n` is
the bit length of `n` whenever `n ≤ fuel`. -/
def bitLenAux : ℕ → ℕ → ℕ
  | 0, _ => 0
  | fuel + 1, n => if n = 0 then 0 else bitLenAux fuel (n / 2) + 1

/-- Bit length of `n`: the unique `e` with `2^(e-1) ≤ n < 2^e` for `n ≥ 1`
(and `0` for `n = 0`); see `lt_two_pow_bitLen` and `two_pow_pred_le_bitLen`
below. -/
def bitLen (n : ℕ) : ℕ :=
  bitLenAux n n

/-- Embedding of `next_power_of_two` (src/tensorgcc/gcc.py lines 8-13 and
src/gcc/ops.py lines 3-8).  `math.frexp n` writes `n = mantissa * 2^e` with
`1/2 ≤ |mantissa| < 1` for `n ≠ 0` (and returns `(0.0, 0)` for `n = 0`);
for a nonzero integer `n` the exponent `e` is the bit length of `|n|`
(the unique `e` with `2^(e-1) ≤ |n| < 2^e`), and `mantissa = 0.5` exactly
when `n` is a positive power of two, i.e. `n = 2^(e-1)`.  The function
returns `e`, minus one in that exact case. -/
def next_power_of_two (n : ℤ) : ℕ :=
  if 0 < n ∧ n.natAbs = 2 ^ (bitLen n.natAbs - 1) then bitLen n.natAbs - 1
  else bitLen n.natAbs

/-- Length `m = 2 * num_samples - 1` (src/tensorgcc/gcc.py line 47),
computed in ℤ because Python ints are signed (`m = -1` when
`num_samples = 0`). -/
def mOf (num_samples : ℕ) : ℤ :=
  2 * (num_samples : ℤ) - 1

/-- Output-lag count `ncorr` (src/tensorgcc/gcc.py lines 48-51):
`m` if `max_delay` is `None`, else `min(m, int(max_delay))`. -/
def ncorrOf (num_samples : ℕ) (max_delay : Option ℤ) : ℤ :=
  match max_delay with
  | none => mOf num_samples
  | some d => min (mOf num_samples) d

/-- Transform length `nfft = 2 ** next_power_of_two(m)`
(src/tensorgcc/gcc.py line 52). -/
def nfftOf (num_samples : ℕ) : ℕ :=
  2 ^ next_power_of_two (mOf num_samples)

/-- Error taxonomy of spec section 7.  The source raises `ValueError` for a
bad `weighting`/`scale` (`configError`), `tf` shape assertions for bad
ranks or incompatible broadcasts (`shapeError`), a Python `assert` for the
`_shift` precondition (classified by the spec as `configError`), and
`tf.debugging.check_numerics` for non-finite values (`numericalError`,
unreachable in exact arithmetic). -/
inductive GccErr
  | shapeError
  | configError
  | numericalError
deriving DecidableEq, Repr

/-- Input tensor of the model: rank 1 (one waveform), rank 2 (a batch of
waveforms, one per row), or a tensor of any other rank `r` — `gcc` rejects
those before ever reading their data, so the data is not carried.  All
shapes of the model are static, so the source's "dimension must be
statically defined" `ValueError` (src/tensorgcc/gcc.py lines 43-46) is
unreachable here. -/
inductive Tensor
  | vec (x : List ℚ)
  | mat (rows : List (List ℚ))
  | other (rank : ℕ)
deriving DecidableEq

/-- Rows of a tensor: a rank-1 tensor is a single row; its rank-1 result is
represented as a one-row list throughout. -/
def Tensor.rows : Tensor → List (List ℚ)
  | .vec x => [x]
  | .mat rows => rows
  | .other _ => []

/-- Check of `tf.debugging.assert_rank_in(x, [1, 2])`
(src/tensorgcc/gcc.py lines 37-38). -/
def Tensor.rankOK : Tensor → Bool
  | .vec _ => true
  | .mat _ => true
  | .other _ => false

/-- Trailing static dimension `x.get_shape()[-1]`
(src/tensorgcc/gcc.py line 42). -/
def Tensor.numSamples (t : Tensor) : ℕ :=
  t.rows.headI.length

/-- Elementwise addition of a constant to a tensor (used to state the
DC-offset invariance claim). -/
def Tensor.addConst (t : Tensor) (c : ℚ) : Tensor :=
  match t with
  | .vec x => .vec (x.map fun v => v + c)
  | .mat rows => .mat (rows.map fun r => r.map fun v => v + c)
  | .other r => .other r

/-- External array/FFT backend (spec section 6 lists it as an external
collaborator providing real forward/inverse FFTs with explicit padding,
complex arithmetic and the phase extraction used by PHAT).  `Spec` is the
backend's representation of a one-sided complex spectrum and `Val` its
time-domain scalar type; `divQ` is division of such a scalar by an exact
constant, used by `_scale`.  Control-flow and scaling theorems below hold
for every backend; concrete-value theorems use the exact rational backend
`ratB`. -/
structure Backend where
  Val : Type
  Spec : Type
  rfft : List ℚ → ℕ → Spec
  conj : Spec → Spec
  cmul : Spec → Spec → Spec
  phat : Spec → Spec
  irfft : Spec → ℕ → List Val
  divQ : Val → ℚ → Val

/-- Embedding of `_filter` (src/tensorgcc/gcc.py lines 87-93): PHAT replaces
the cross-spectrum by `exp(i * angle(R01))`; any other recognised value
(only `None` reaches this point) passes the spectrum through. -/
def filterW (B : Backend) (R01 : B.Spec) (weighting : Option String) : B.Spec :=
  if weighting = some "PHAT" then B.phat R01 else R01

/-- Embedding of `_shift` (src/tensorgcc/gcc.py lines 78-84), applied to
every row of the inverse transform output: `assert N > ncorr` (a failure is
the spec's `configError`), then
`concat([x[..., N-ncorr : N-1], x[..., :ncorr]], axis=-1)`. -/
def shiftRows {α : Type} (rows : List (List α)) (N : ℕ) (ncorr : ℤ) :
    Option (List (List α)) :=
  if ncorr < (N : ℤ) then
    some (rows.map fun x =>
      pySlice x ((N : ℤ) - ncorr) ((N : ℤ) - 1) ++ pySlice x 0 ncorr)
  else
    none

/-- Clamped triangular denominator shared verbatim by the "unbiased"
branches of both `_scale` implementations (src/tensorgcc/gcc.py lines
103-105 and src/gcc/gcc.py lines 84-86): with `L = int((gcc_len - 1) / 2)`,
`den = m - np.abs(np.arange(-L, L + 1))` followed by `den[den <= 0] = 1`.
`np.arange(-L, L + 1)` sends index `i < 2L+1` to `i - L`. -/
def unbiasedDenCore (m gcc_len : ℕ) : List ℤ :=
  ((List.range (2 * ((gcc_len - 1) / 2) + 1)).map fun i : ℕ =>
    (m : ℤ) - |(i : ℤ) - (((gcc_len - 1) / 2 : ℕ) : ℤ)|).map
    fun d => if d ≤ 0 then 1 else d

/-- Denominator array of the "unbiased" branch of `_scale` in
src/tensorgcc/gcc.py (lines 101-107): the shared core followed by
`den = np.pad(den, (0, gcc_len - len(den)), mode="edge")` — the workaround
that edge-extends the array to `gcc_len` entries when `gcc_len` is even
(the pad width is `0` when `gcc_len` is odd). -/
def unbiasedDen (m gcc_len : ℕ) : List ℤ :=
  unbiasedDenCore m gcc_len ++
    List.replicate (gcc_len - (unbiasedDenCore m gcc_len).length)
      ((unbiasedDenCore m gcc_len).getLast?.getD 1)

/-- Denominator array of the "unbiased" branch of `_scale` in
src/gcc/gcc.py (lines 84-86): the shared core with no edge padding. -/
def unbiasedDenOld (m gcc_len : ℕ) : List ℤ :=
  unbiasedDenCore m gcc_len

/-- NumPy broadcasting semantics of the division `gcc / den` of a row by an
integer vector: defined elementwise when the lengths agree, broadcast when
`den` is a scalar (length one), and a shape error (`None`) otherwise. -/
def broadcastDiv (g : List ℚ) (den : List ℤ) : Option (List ℚ) :=
  if den.length = g.length then
    some (List.zipWith (fun v d => v / (d : ℚ)) g den)
  else if den.length = 1 then
    some (g.map fun v => v / ((den.headI : ℤ) : ℚ))
  else
    none

/-- Unbiased branch of `_scale` in src/gcc/gcc.py (lines 83-87), for one
output row of length `g.length`: divide by the unpadded denominator array
under NumPy broadcasting.  `None` models the broadcasting error raised when
the denominator length matches neither the row length nor 1. -/
def oldScaleUnbiased (m : ℕ) (g : List ℚ) : Option (List ℚ) :=
  broadcastDiv g (unbiasedDenOld m g.length)

/-- Embedding of `_scale` (src/tensorgcc/gcc.py lines 96-110), rowwise over
the batch: `m = x.get_shape()[-1]` is the trailing dimension of the
(demeaned) reference signal; "biased" divides every entry by `m`,
"unbiased" divides entry `i` of each row by `den[i]` (NumPy broadcasts the
`den` vector across the batch), anything else passes through. -/
def scaleRows (B : Backend) (x : List (List ℚ)) (g : List (List B.Val))
    (scale : Option String) : List (List B.Val) :=
  if scale = some "biased" then
    g.map fun row => row.map fun v => B.divQ v (x.headI.length : ℚ)
  else if scale = some "unbiased" then
    g.map fun row =>
      List.zipWith (fun v d => B.divQ v (d : ℚ)) row
        (unbiasedDen x.headI.length row.length)
  else
    g

/-- Pairing of the two spectrum batches for the product `R01 = X1 * X0`
(src/tensorgcc/gcc.py line 64), with TensorFlow broadcasting: equal batch
sizes pair elementwise, a batch of one broadcasts against the other batch,
anything else is a shape error. -/
def broadcastZip {α : Type} (a b : List α) : Option (List (α × α)) :=
  if a.length = b.length then some (a.zip b)
  else
    match a, b with
    | [x], b => some (b.map fun y => (x, y))
    | a, [y] => some (a.map fun x => (x, y))
    | _, _ => none

/-- Embedding of `_gcc` (src/tensorgcc/gcc.py lines 59-75), rowwise over the
batch: `X0 = conj(rfft(x0, [nfft]))`, `X1 = rfft(x1, [nfft])`,
`R01 = X1 * X0`, `R01 = _filter(R01, weighting)`,
`r01 = irfft(R01, [nfft])`, then `_shift` and `_scale`.  The
`check_numerics` guard between `irfft` and `_shift` only detects float
NaN/Inf and is a no-op in exact arithmetic, so `numericalError` is never
produced here. -/
def gccInner (B : Backend) (x0 x1 : List (List ℚ)) (nfft : ℕ) (ncorr : ℤ)
    (weighting scale : Option String) : Except GccErr (List (List B.Val)) :=
  let X0 := x0.map fun r => B.conj (B.rfft r nfft)
  let X1 := x1.map fun r => B.rfft r nfft
  match broadcastZip X1 X0 with
  | none => .error .shapeError
  | some pairs =>
    let r01 := pairs.map fun p => B.irfft (filterW B (B.cmul p.1 p.2) weighting) nfft
    match shiftRows r01 nfft ncorr with
    | none => .error .configError
    | some rows => .ok (scaleRows B x0 rows scale)

/-- Embedding of `gcc` (src/tensorgcc/gcc.py lines 16-56): validate
`weighting`, then `scale`, then the ranks of both inputs; read
`num_samples` from `x0` alone; compute `m`, `ncorr` and `nfft`; remove the
DC component of each signal; and hand off to `_gcc`. -/
def gcc (B : Backend) (x0 x1 : Tensor) (max_delay : Option ℤ)
    (weighting scale : Option String) : Except GccErr (List (List B.Val)) :=
  if weighting ∉ ([none, some "PHAT"] : List (Option String)) then
    .error .configError
  else if scale ∉ ([none, some "biased", some "unbiased"] : List (Option String)) then
    .error .configError
  else if x0.rankOK && x1.rankOK then
    gccInner B (x0.rows.map demean) (x1.rows.map demean)
      (nfftOf x0.numSamples) (ncorrOf x0.numSamples max_delay) weighting scale
  else
    .error .shapeError

/-- Symbolic one-sided spectra: the expressions the pipeline can build from
the backend's spectral operations. -/
inductive SpecE
  | rfftE (x : List ℚ) (n : ℕ)
  | conjE (s : SpecE)
  | cmulE (s t : SpecE)
  | phatE (s : SpecE)
deriving DecidableEq

/-- Exact inverse transform: the unweighted cross-spectrum pattern
`rfft(x1, [n]) * conj(rfft(x0, [n]))` evaluates, by the discrete
correlation theorem, to the circular cross-correlation of the padded
inputs — the exact value the float pipeline approximates.  A weighted
(PHAT) spectrum has transcendental time-domain values, which ℚ cannot
represent; no claim evaluates that branch, and this backend returns a
length-`n` placeholder row there, keeping only the length contract of
`irfft(·, [n])`. -/
def SpecE.irfftQ : SpecE → ℕ → List ℚ
  | .cmulE (.rfftE x1 _) (.conjE (.rfftE x0 _)), n => circCorr x0 x1 n
  | _, n => List.replicate n 0

/-- Exact rational backend: the idealisation of the TensorFlow FFT backend
in exact arithmetic, used for all concrete-value theorems. -/
@[reducible]
def ratB : Backend where
  Val := ℚ
  Spec := SpecE
  rfft := SpecE.rfftE
  conj := SpecE.conjE
  cmul := SpecE.cmulE
  phat := SpecE.phatE
  irfft := SpecE.irfftQ
  divQ := fun v c => v / c

lemma bitLenAux_zero (fuel : ℕ) : bitLenAux fuel 0 = 0 := by
  cases fuel <;> simp [bitLenAux]

lemma lt_two_pow_bitLenAux (fuel : ℕ) :
    ∀ n, n ≤ fuel → n < 2 ^ bitLenAux fuel n := by
  induction fuel with
  | zero =>
    intro n h
    have : n = 0 := by omega
    simp [this, bitLenAux]
  | succ fuel ih =>
    intro n h
    by_cases hn : n = 0
    · simp [hn, bitLenAux]
    · have h2 : n / 2 ≤ fuel := by omega
      have hrec := ih (n / 2) h2
      have hb : bitLenAux (fuel + 1) n = bitLenAux fuel (n / 2) + 1 := by
        simp [bitLenAux, hn]
      rw [hb, pow_succ]
      omega

lemma bitLenAux_pos (fuel n : ℕ) (h1 : 1 ≤ n) (h : n ≤ fuel) :
    1 ≤ bitLenAux fuel n := by
  cases fuel with
  | zero => omega
  | succ fuel =>
    have hn : n ≠ 0 := by omega
    simp [bitLenAux, hn]

lemma two_pow_pred_le_bitLenAux (fuel : ℕ) :
    ∀ n, n ≤ fuel → 1 ≤ n → 2 ^ (bitLenAux fuel n - 1) ≤ n := by
  induction fuel with
  | zero => intro n h h1; omega
  | succ fuel ih =>
    intro n h h1
    have hn : n ≠ 0 := by omega
    have hb : bitLenAux (fuel + 1) n = bitLenAux fuel (n / 2) + 1 := by
      simp [bitLenAux, hn]
    rcases eq_or_lt_of_le h1 with h1 | h2
    · have hn1 : n = 1 := h1.symm
      subst hn1
      simp [hb, bitLenAux_zero]
    · have hge : 2 ≤ n := h2
      have hhalf1 : 1 ≤ n / 2 := by omega
      have hhalff : n / 2 ≤ fuel := by omega
      have hrec := ih (n / 2) hhalff hhalf1
      have hpos := bitLenAux_pos fuel (n / 2) hhalf1 hhalff
      rw [hb]
      have hk : bitLenAux fuel (n / 2) + 1 - 1 = (bitLenAux fuel (n / 2) - 1) + 1 := by
        omega
      rw [hk, pow_succ]
      omega

lemma lt_two_pow_bitLen (n : ℕ) : n < 2 ^ bitLen n :=
  lt_two_pow_bitLenAux n n le_rfl

lemma two_pow_pred_le_bitLen (n : ℕ) (h : 1 ≤ n) : 2 ^ (bitLen n - 1) ≤ n :=
  two_pow_pred_le_bitLenAux n n le_rfl h

lemma two_le_bitLen (n : ℕ) (h : 2 ≤ n) : 2 ≤ bitLen n := by
  unfold bitLen
  cases n with
  | zero => omega
  | succ n =>
    have hb : bitLenAux (n + 1) (n + 1) = bitLenAux n ((n + 1) / 2) + 1 := by
      simp [bitLenAux]
    rw [hb]
    have h1 : 1 ≤ (n + 1) / 2 := by omega
    have h2 : (n + 1) / 2 ≤ n := by omega
    have := bitLenAux_pos n ((n + 1) / 2) h1 h2
    omega

/-- Key bound for the spectral stage: `nfft` dominates `m`. -/
lemma mOf_le_nfftOf (N : ℕ) (h : 1 ≤ N) : mOf N ≤ (nfftOf N : ℤ) := by
  have habs : (mOf N).natAbs = 2 * N - 1 := by unfold mOf; omega
  have hm : mOf N = ((2 * N - 1 : ℕ) : ℤ) := by unfold mOf; omega
  unfold nfftOf next_power_of_two
  split_ifs with hcase
  · rw [hm, habs] at *
    rw [← hcase.2]
    omega
  · have := lt_two_pow_bitLen (mOf N).natAbs
    rw [habs] at this
    rw [hm]
    exact_mod_cast le_of_lt this

/-- Strict bound behind the `_shift` precondition: for `N ≥ 2` the length
`m = 2N - 1` is odd and at least 3, so it is not a power of two and
`nfft = 2^bitLen m > m ≥ ncorr`. -/
lemma ncorrOf_lt_nfftOf (N : ℕ) (md : Option ℤ) (h : 2 ≤ N) :
    ncorrOf N md < (nfftOf N : ℤ) := by
  have hm : mOf N = ((2 * N - 1 : ℕ) : ℤ) := by unfold mOf; omega
  have habs : (mOf N).natAbs = 2 * N - 1 := by unfold mOf; omega
  have hlt : mOf N < (nfftOf N : ℤ) := by
    unfold nfftOf next_power_of_two
    split_ifs with hcase
    · exfalso
      obtain ⟨-, heq⟩ := hcase
      have h2 : 2 ≤ (mOf N).natAbs := by omega
      have hbl := two_le_bitLen _ h2
      obtain ⟨k, hk⟩ : ∃ k, bitLen (mOf N).natAbs - 1 = k + 1 :=
        ⟨bitLen (mOf N).natAbs - 2, by omega⟩
      rw [hk, pow_succ] at heq
      omega
    · have := lt_two_pow_bitLen (mOf N).natAbs
      rw [habs] at this
      rw [hm]
      exact_mod_cast this
  have hle : ncorrOf N md ≤ mOf N := by
    unfold ncorrOf
    cases md with
    | none => exact le_rfl
    | some d => exact min_le_left _ _
  omega

lemma demean_length (x : List ℚ) : (demean x).length = x.length := by
  simp [demean]

lemma headI_length_map_demean (l : List (List ℚ)) :
    (l.map demean).headI.length = l.headI.length := by
  cases l with
  | nil => rfl
  | cons a t => simp [demean_length]

lemma sum_map_add_const (x : List ℚ) (c : ℚ) :
    (x.map fun v => v + c).sum = x.sum + x.length * c := by
  induction x with
  | nil => simp
  | cons a t ih =>
    simp only [List.map_cons, List.sum_cons, List.length_cons, ih]
    push_cast
    ring

/-- DC removal absorbs constant offsets: subtracting the mean of `x + c`
from `x + c` gives back the demeaned `x`. -/
lemma demean_map_add_const (x : List ℚ) (c : ℚ) :
    demean (x.map fun v => v + c) = demean x := by
  cases hx : x with
  | nil => rfl
  | cons a t =>
    have hlen : (x.length : ℚ) ≠ 0 := by
      rw [hx]
      exact Nat.cast_ne_zero.mpr (by simp)
    rw [← hx]
    unfold demean
    rw [List.map_map, sum_map_add_const, List.length_map]
    apply List.map_congr_left
    intro v _
    simp only [Function.comp]
    have hdiv : (x.sum + x.length * c) / x.length = x.sum / x.length + c := by
      field_simp
      ring
    rw [hdiv]
    ring

lemma rankOK_addConst (t : Tensor) (c : ℚ) : (t.addConst c).rankOK = t.rankOK := by
  cases t <;> rfl

lemma rows_addConst (t : Tensor) (c : ℚ) :
    (t.addConst c).rows = t.rows.map fun r => r.map fun v => v + c := by
  cases t <;> rfl

lemma numSamples_addConst (t : Tensor) (c : ℚ) :
    (t.addConst c).numSamples = t.numSamples := by
  unfold Tensor.numSamples
  rw [rows_addConst]
  cases t.rows with
  | nil => rfl
  | cons a l => simp

lemma demean_rows_addConst (t : Tensor) (c : ℚ) :
    (t.addConst c).rows.map demean = t.rows.map demean := by
  rw [rows_addConst, List.map_map]
  apply List.map_congr_left
  intro r _
  simp only [Function.comp]
  exact demean_map_add_const r c

/-- The "biased" scaling is exactly the unscaled result divided elementwise
by the trailing dimension of the reference rows, whatever the backend. -/
lemma gccInner_biased (B : Backend) (x0 x1 : List (List ℚ)) (nfft : ℕ)
    (ncorr : ℤ) (w : Option String) :
    gccInner B x0 x1 nfft ncorr w (some "biased") =
      Except.map (List.map (List.map fun v => B.divQ v (x0.headI.length : ℚ)))
        (gccInner B x0 x1 nfft ncorr w none) := by
  cases h : broadcastZip (x1.map fun r => B.rfft r nfft)
      (x0.map fun r => B.conj (B.rfft r nfft)) with
  | none => simp [gccInner, h, Except.map]
  | some pairs =>
    cases h2 : shiftRows (pairs.map fun p =>
        B.irfft (filterW B (B.cmul p.1 p.2) w) nfft) nfft ncorr with
    | none => simp [gccInner, h, h2, Except.map]
    | some rows => simp [gccInner, h, h2, Except.map, scaleRows]

lemma length_unbiasedDenCore (m glen : ℕ) :
    (unbiasedDenCore m glen).length = 2 * ((glen - 1) / 2) + 1 := by
  simp [unbiasedDenCore]

lemma getElem?_unbiasedDenCore (m glen i : ℕ) (h : i < 2 * ((glen - 1) / 2) + 1) :
    (unbiasedDenCore m glen)[i]? =
      some (max 1 ((m : ℤ) - |(i : ℤ) - (((glen - 1) / 2 : ℕ) : ℤ)|)) := by
  unfold unbiasedDenCore
  rw [List.getElem?_map, List.getElem?_map, List.getElem?_range h,
    Option.map_some', Option.map_some']
  congr 1
  split_ifs <;> omega

lemma getLastD_unbiasedDenCore (m glen : ℕ) :
    (unbiasedDenCore m glen).getLast?.getD 1 =
      max 1 ((m : ℤ) - (((glen - 1) / 2 : ℕ) : ℤ)) := by
  rw [List.getLast?_eq_getElem?, length_unbiasedDenCore]
  rw [getElem?_unbiasedDenCore m glen _ (by omega)]
  simp only [Option.getD_some]
  congr 2
  have h2 : ((2 * ((glen - 1) / 2) + 1 - 1 : ℕ) : ℤ) =
      2 * (((glen - 1) / 2 : ℕ) : ℤ) := by
    push_cast
    omega
  rw [h2]
  rw [show 2 * (((glen - 1) / 2 : ℕ) : ℤ) - (((glen - 1) / 2 : ℕ) : ℤ) =
    (((glen - 1) / 2 : ℕ) : ℤ) by ring]
  rw [abs_of_nonneg (by positivity)]

lemma length_unbiasedDen (m glen : ℕ) (h : 1 ≤ glen) :
    (unbiasedDen m glen).length = glen := by
  unfold unbiasedDen
  rw [List.length_append, List.length_replicate, length_unbiasedDenCore]
  omega

lemma getD_unbiasedDen_core (m glen i : ℕ) (h : i < 2 * ((glen - 1) / 2) + 1) :
    (unbiasedDen m glen).getD i 0 =
      max 1 ((m : ℤ) - |(i : ℤ) - (((glen - 1) / 2 : ℕ) : ℤ)|) := by
  rw [List.getD_eq_getElem?_getD]
  unfold unbiasedDen
  rw [List.getElem?_append, if_pos (by rw [length_unbiasedDenCore]; omega)]
  rw [getElem?_unbiasedDenCore m glen i h]
  rfl

lemma getD_unbiasedDen_pad (m glen i : ℕ) (h1 : 2 * ((glen - 1) / 2) + 1 ≤ i)
    (h2 : i < glen) :
    (unbiasedDen m glen).getD i 0 =
      max 1 ((m : ℤ) - (((glen - 1) / 2 : ℕ) : ℤ)) := by
  rw [List.getD_eq_getElem?_getD]
  unfold unbiasedDen
  rw [List.getElem?_append, if_neg (by rw [length_unbiasedDenCore]; omega)]
  rw [List.getElem?_replicate_of_lt (by rw [length_unbiasedDenCore]; omega)]
  rw [getLastD_unbiasedDenCore]
  rfl

lemma unbiasedDen_pos (m glen : ℕ) : ∀ d ∈ unbiasedDen m glen, 0 < d := by
  intro d hd
  unfold unbiasedDen at hd
  rw [List.mem_append] at hd
  rcases hd with hd | hd
  · unfold unbiasedDenCore at hd
    rw [List.mem_map] at hd
    obtain ⟨y, -, rfl⟩ := hd
    split_ifs <;> omega
  · rw [List.mem_replicate] at hd
    rw [hd.2, getLastD_unbiasedDenCore]
    exact lt_of_lt_of_le one_pos (le_max_left 1 _)

/-- On odd output lengths the edge pad of the newer `_scale` is empty, so
the two denominator arrays coincide. -/
lemma unbiasedDenOld_eq_of_odd (m glen : ℕ) (h : Odd glen) :
    unbiasedDenOld m glen = unbiasedDen m glen := by
  unfold unbiasedDen unbiasedDenOld
  rw [show glen - (unbiasedDenCore m glen).length = 0 by
    rw [length_unbiasedDenCore]
    obtain ⟨k, hk⟩ := h
    omega]
  simp

/-- A singleton batch (rank-1 input pair) always broadcasts, and when the
`_shift` precondition holds the pipeline completes with a result. -/
lemma gccInner_singleton_ok (B : Backend) (x0 x1 : List ℚ) (nfft : ℕ)
    (ncorr : ℤ) (w s : Option String) (h : ncorr < (nfft : ℤ)) :
    ∃ r, gccInner B [x0] [x1] nfft ncorr w s = .ok r := by
  have hb : broadcastZip [B.rfft x1 nfft] [B.conj (B.rfft x0 nfft)] =
      some [(B.rfft x1 nfft, B.conj (B.rfft x0 nfft))] := by
    simp [broadcastZip]
  simp only [gccInner, List.map_cons, List.map_nil, hb, shiftRows, if_pos h]
  exact ⟨_, rfl⟩

/-- C1: the spec says `gcc(x0, x1, scale=None, weighting=None)` has trailing
length `2N-1` (`min(2N-1, max_delay)` with a delay cap), but `_shift`
(src/tensorgcc/gcc.py lines 78-84) concatenates the `ncorr - 1` samples
`x[..., nfft-ncorr : nfft-1]` with the `ncorr` samples `x[..., :ncorr]`,
so the code's trailing length is `2*ncorr - 1`.  Witnessed at
`x0 = x1 = [1, 0]` (`N = 2`, `max_delay` omitted): the claim expects
length `m = 2N-1 = 3`; the code returns the 5-entry row below. -/
theorem c1_output_length_bug :
    gcc ratB (.vec [1, 0]) (.vec [1, 0]) none none none =
      .ok [[-1/4, 0, 1/2, -1/4, 0]] ∧
    ([-1/4, 0, 1/2, -1/4, 0] : List ℚ).length = 5 ∧
    mOf 2 = 3 := by decide

/-- C2: the spec's concrete scenario `x0 = x1 = [1, 0, -1, 0]` expects a
length-7 output with value 2 at index 3 and peak at index 3; the code
(through the `_shift` slicing of C1) returns the 13-entry row below, whose
index-3 entry is 0 and whose maximum 2 sits at index 6. -/
theorem c2_concrete_scenario_bug :
    gcc ratB (.vec [1, 0, -1, 0]) (.vec [1, 0, -1, 0]) none none none =
      .ok [[0, -1, 0, 0, 0, -1, 2, 0, -1, 0, 0, 0, -1]] ∧
    ([0, -1, 0, 0, 0, -1, 2, 0, -1, 0, 0, 0, -1] : List ℚ).length = 13 ∧
    ([0, -1, 0, 0, 0, -1, 2, 0, -1, 0, 0, 0, -1] : List ℚ).getD 3 0 = 0 := by
  decide

/-- C3: for every sample count `N ≥ 1` the transform length
`nfft = 2 ^ next_power_of_two (2N-1)` computed by `gcc` is a power of two
and is at least `m = 2N - 1`. -/
theorem c3_nfft_pow_two_ge_m (N : ℕ) (h : 1 ≤ N) :
    (∃ k, nfftOf N = 2 ^ k) ∧ mOf N ≤ (nfftOf N : ℤ) :=
  ⟨⟨next_power_of_two (mOf N), rfl⟩, mOf_le_nfftOf N h⟩

theorem c3_witness :
    1 ≤ 4 ∧ ((∃ k, nfftOf 4 = 2 ^ k) ∧ mOf 4 ≤ (nfftOf 4 : ℤ)) :=
  ⟨by decide, c3_nfft_pow_two_ge_m 4 (by decide)⟩

/-- C4 counterexample: at `N = 1` (a valid input) the claim fails: `m = 1`
is a power of two, so `nfft = 2^0 = 1 = ncorr` and the `_shift`
precondition `nfft > ncorr` does NOT hold — the check fires and `gcc`
fails with the spec's `configError`. -/
theorem c4_counterexample :
    ncorrOf 1 none = (nfftOf 1 : ℤ) ∧
    gcc ratB (.vec [1]) (.vec [1]) none none none = .error .configError := by
  decide

/-- C4 amended: for every sample count `N ≥ 2` (and any `max_delay`) the
precondition `nfft > ncorr` of `_shift` does hold, because `m = 2N-1 ≥ 3`
is odd, hence not a power of two, so `ncorr ≤ m < nfft`; at `N = 1` it is
violated and `gcc` fails with a `configError` (see the counterexample). -/
theorem c4_shift_precondition (N : ℕ) (md : Option ℤ) (h : 2 ≤ N) :
    ncorrOf N md < (nfftOf N : ℤ) :=
  ncorrOf_lt_nfftOf N md h

theorem c4_witness : 2 ≤ 2 ∧ ncorrOf 2 none < (nfftOf 2 : ℤ) :=
  ⟨by decide, c4_shift_precondition 2 none (by decide)⟩

/-- C5: for every backend and every input pair, a `weighting` outside
`{None, "PHAT"}` makes `gcc` fail with a `configError`, and a `scale`
outside `{None, "biased", "unbiased"}` makes `gcc` fail with a
`configError` (src/tensorgcc/gcc.py lines 30-33; the checks run before any
shape inspection). -/
theorem c5_config_validation (B : Backend) (x0 x1 : Tensor) (md : Option ℤ)
    (w s : Option String) :
    (w ∉ ([none, some "PHAT"] : List (Option String)) →
      gcc B x0 x1 md w s = .error .configError) ∧
    (s ∉ ([none, some "biased", some "unbiased"] : List (Option String)) →
      gcc B x0 x1 md w s = .error .configError) := by
  constructor
  · intro hw
    simp [gcc, hw]
  · intro hs
    by_cases hw : w ∈ ([none, some "PHAT"] : List (Option String))
    · simp [gcc, hw, hs]
    · simp [gcc, hw]

theorem c5_witness :
    gcc ratB (.vec [1]) (.vec [1]) none (some "bogus") none = .error .configError ∧
    gcc ratB (.vec [1]) (.vec [1]) none none (some "bogus") = .error .configError :=
  ⟨(c5_config_validation ratB (.vec [1]) (.vec [1]) none (some "bogus") none).1
      (by decide),
   (c5_config_validation ratB (.vec [1]) (.vec [1]) none none (some "bogus")).2
      (by decide)⟩

/-- C6 counterexample: `x0 = [1, 0]` and `x1 = [1, 0, 0]` have different
trailing sample counts (2 vs 3), yet `gcc` does not fail with a
`ShapeError` — it never compares the two counts; `num_samples` is read from
`x0` alone (src/tensorgcc/gcc.py line 42) and `rfft(x1, [nfft])` silently
pads/truncates `x1`, so the call succeeds with the value below. -/
theorem c6_counterexample :
    (Tensor.vec [1, 0]).numSamples ≠ (Tensor.vec ([1, 0, 0] : List ℚ)).numSamples ∧
    gcc ratB (.vec [1, 0]) (.vec [1, 0, 0]) none none none =
      .ok [[0, -1/6, 1/2, 0, -1/6]] := by
  decide

/-- C6 amended: `gcc` raises no error at all for mismatched trailing
dimensions — for every backend, any rank-1 pair with a valid configuration
and `x0` of length at least 2 succeeds, whatever the length of `x1`
(which the FFT pads or truncates to `nfft`). -/
theorem c6_no_sample_count_check (B : Backend) (x0 x1 : List ℚ)
    (md : Option ℤ) (w s : Option String)
    (hw : w ∈ ([none, some "PHAT"] : List (Option String)))
    (hs : s ∈ ([none, some "biased", some "unbiased"] : List (Option String)))
    (h : 2 ≤ x0.length) :
    ∃ r, gcc B (.vec x0) (.vec x1) md w s = .ok r := by
  have hshift : ncorrOf (Tensor.vec x0).numSamples md <
      (nfftOf (Tensor.vec x0).numSamples : ℤ) :=
    ncorrOf_lt_nfftOf x0.length md h
  unfold gcc
  rw [if_neg (not_not_intro hw), if_neg (not_not_intro hs),
    if_pos (show ((Tensor.vec x0).rankOK && (Tensor.vec x1).rankOK) = true from rfl)]
  exact gccInner_singleton_ok B (demean x0) (demean x1) _ _ w s hshift

theorem c6_witness :
    ∃ r, gcc ratB (.vec [1, 0]) (.vec [1, 0, 0]) none none none = .ok r :=
  c6_no_sample_count_check ratB [1, 0] [1, 0, 0] none none none
    (by decide) (by decide) (by decide)

/-- C7: for every backend, every input pair (of any rank), every
`max_delay` and every `weighting`, the "biased" result is the unscaled
result divided elementwise by the sample count `N` of `x0` — `_scale`
divides by `m = x.get_shape()[-1]` (src/tensorgcc/gcc.py lines 96-100),
and in every failure case both sides carry the same error. -/
theorem c7_biased_scaling (B : Backend) (x0 x1 : Tensor) (md : Option ℤ)
    (w : Option String) :
    gcc B x0 x1 md w (some "biased") =
      Except.map (List.map (List.map fun v => B.divQ v (x0.numSamples : ℚ)))
        (gcc B x0 x1 md w none) := by
  by_cases hw : w ∈ ([none, some "PHAT"] : List (Option String))
  · by_cases hr : (x0.rankOK && x1.rankOK) = true
    · unfold gcc
      simp only [if_neg (not_not_intro hw)]
      simp only [if_neg (show ¬ ((some "biased" : Option String) ∉
        ([none, some "biased", some "unbiased"] : List (Option String))) by decide)]
      simp only [if_neg (show ¬ ((none : Option String) ∉
        ([none, some "biased", some "unbiased"] : List (Option String))) by decide)]
      simp only [if_pos hr]
      rw [gccInner_biased]
      simp only [headI_length_map_demean]
      rfl
    · unfold gcc
      simp only [if_neg (not_not_intro hw)]
      simp only [if_neg (show ¬ ((some "biased" : Option String) ∉
        ([none, some "biased", some "unbiased"] : List (Option String))) by decide)]
      simp only [if_neg (show ¬ ((none : Option String) ∉
        ([none, some "biased", some "unbiased"] : List (Option String))) by decide)]
      simp only [if_neg hr]
      rfl
  · unfold gcc
    simp only [if_pos hw]
    rfl

/-- C8: the "unbiased" branch of `_scale` divides each row entrywise by the
denominator array `unbiasedDen m gcc_len`; for `L = (gcc_len-1)/2` that
array has entry `max(1, m - |i - L|)` at every index `i < 2L+1` (lag
`ℓ = i - L`, so the entry is `max(1, m - |ℓ|)`), is strictly positive
everywhere, has exactly `gcc_len` entries, and its indices from `2L+1` on
(present exactly when `gcc_len` is even) repeat the edge value
`max(1, m - L)`. -/
theorem c8_unbiased_denominator (B : Backend) (x : List (List ℚ))
    (g : List (List B.Val)) (m glen : ℕ) (h : 1 ≤ glen) :
    (scaleRows B x g (some "unbiased") =
      g.map fun row => List.zipWith (fun v d => B.divQ v (d : ℚ)) row
        (unbiasedDen x.headI.length row.length)) ∧
    (unbiasedDen m glen).length = glen ∧
    (∀ d ∈ unbiasedDen m glen, 0 < d) ∧
    (∀ i, i < 2 * ((glen - 1) / 2) + 1 →
      (unbiasedDen m glen).getD i 0 =
        max 1 ((m : ℤ) - |(i : ℤ) - (((glen - 1) / 2 : ℕ) : ℤ)|)) ∧
    (∀ i, 2 * ((glen - 1) / 2) + 1 ≤ i → i < glen →
      (unbiasedDen m glen).getD i 0 =
        max 1 ((m : ℤ) - (((glen - 1) / 2 : ℕ) : ℤ))) := by
  refine ⟨?_, length_unbiasedDen m glen h, unbiasedDen_pos m glen,
    fun i hi => getD_unbiasedDen_core m glen i hi,
    fun i hi1 hi2 => getD_unbiasedDen_pad m glen i hi1 hi2⟩
  simp [scaleRows]

theorem c8_witness : 1 ≤ 4 ∧ (unbiasedDen 3 4).length = 4 :=
  ⟨by decide,
   (c8_unbiased_denominator ratB [] ([] : List (List ℚ)) 3 4 (by decide)).2.1⟩

/-- C9: the two `_scale` implementations agree on every odd-length
correlation output (the edge pad of src/tensorgcc/gcc.py is empty there and
the denominators coincide), and diverge on even lengths: at `m = 3`,
output length 4, the newer implementation pads the denominator to
`[2, 3, 2, 2]` and divides, while the older one keeps the length-3
`[2, 3, 2]`, whose broadcast against a length-4 row fails. -/
theorem c9_unbiased_even_divergence :
    (∀ m glen, Odd glen → unbiasedDenOld m glen = unbiasedDen m glen) ∧
    (∀ (m : ℕ) (g : List ℚ), Odd g.length → oldScaleUnbiased m g =
      some (List.zipWith (fun v d => v / (d : ℚ)) g (unbiasedDen m g.length))) ∧
    oldScaleUnbiased 3 [1, 1, 1, 1] = none ∧
    unbiasedDen 3 4 = [2, 3, 2, 2] ∧
    unbiasedDenOld 3 4 = [2, 3, 2] := by
  refine ⟨fun m glen h => unbiasedDenOld_eq_of_odd m glen h, ?_,
    by decide, by decide, by decide⟩
  intro m g hodd
  unfold oldScaleUnbiased broadcastDiv
  rw [unbiasedDenOld_eq_of_odd m g.length hodd]
  rw [if_pos (length_unbiasedDen m g.length (by
    obtain ⟨k, hk⟩ := hodd
    omega))]

theorem c9_witness :
    oldScaleUnbiased 2 [1, 1, 1] =
      some (List.zipWith (fun v d => v / (d : ℚ)) [1, 1, 1] (unbiasedDen 2 3)) :=
  c9_unbiased_even_divergence.2.1 2 [1, 1, 1] ⟨1, by norm_num⟩

/-- C10: adding a constant offset to either input signal leaves the result
of `gcc` unchanged, for every backend, rank, `max_delay`, `weighting` and
`scale`: the DC-removal stage (src/tensorgcc/gcc.py lines 54-55) maps
`x + c` and `x` to the same demeaned signal, and nothing downstream sees
anything else of the inputs. -/
theorem c10_dc_offset_invariance (B : Backend) (x0 x1 : Tensor) (c : ℚ)
    (md : Option ℤ) (w s : Option String) :
    gcc B (x0.addConst c) x1 md w s = gcc B x0 x1 md w s ∧
    gcc B x0 (x1.addConst c) md w s = gcc B x0 x1 md w s := by
  constructor
  · unfold gcc
    rw [rankOK_addConst, numSamples_addConst, demean_rows_addConst]
  · unfold gcc
    rw [rankOK_addConst, demean_rows_addConst]

end TensorGCC
